import Mathlib

/-!
Verification of the tour data model, the composite ruin strategy and the CLI
surface of the `AwesomeIbex/vrp` repository, shallowly embedded in Lean.

Sources embedded:
- `src/vrp-core/src/models/solution/tour.rs` (`Tour` and its operations);
- `src/src/refinement/ruin/mod.rs` (`CompositeRuin`);
- `src/src/main.rs` (CLI argument handling and exit codes).

Rust panics (`assert!`, `expect`, `Vec::insert` / `Vec::drain` bound checks,
`usize` underflow) are modelled by `Option`: `none` means the operation aborts
the process.
-/

namespace VRP

/-- Jobs are shared-immutable values identified by identity; the identity is
modelled by a natural number. -/
abbrev Job := Nat

/-- Modelled from the spec: `models/solution/activity.rs` is not among the
provided sources. Per the spec, an activity carries "a back-pointer to the
originating Job (None for sentinels)"; only that back-pointer is relevant to
the tour operations, so the activity is modelled as exactly that field. -/
structure Activity where
  job : Option Job
deriving DecidableEq

/-- Modelled from the spec: `Activity::retrieve_job` returns the originating
job of the activity, `None` for a start or end sentinel. -/
def Activity.retrieve_job (a : Activity) : Option Job :=
  a.job

/-- Modelled from the spec: `Activity::has_same_job(job)` checks whether the
activity originates from the given job (identity comparison). -/
def Activity.has_same_job (a : Activity) (j : Job) : Bool :=
  a.retrieve_job == some j

/-- The `Tour` struct of `tour.rs`: activities in visit order, the set of jobs
present in the tour (`HashSet<Job>` becomes `Finset Job`), and the
closed-tour flag. -/
structure Tour where
  activities : List Activity
  jobs : Finset Job
  is_closed : Bool
deriving DecidableEq

/-- Translation of `Default for Tour`: empty activity list, empty job set, not closed. -/
def Tour.default : Tour :=
  { activities := [], jobs := ∅, is_closed := false }

/-- Translation of `Tour::set_start`: asserts the activity is a sentinel and the tour is
uninitialized, then pushes the activity. -/
def Tour.set_start (t : Tour) (a : Activity) : Option Tour :=
  if a.job = none ∧ t.activities = [] then
    some { t with activities := t.activities ++ [a] }
  else none

/-- Translation of `Tour::set_end`: asserts the activity is a sentinel and the tour is
nonempty, pushes the activity and marks the tour closed. -/
def Tour.set_end (t : Tour) (a : Activity) : Option Tour :=
  if a.job = none ∧ t.activities ≠ [] then
    some { t with activities := t.activities ++ [a], is_closed := true }
  else none

/-- Translation of `Tour::activity_count`: number of job activities. -/
def Tour.activity_count (t : Tour) : Nat :=
  if t.activities = [] then 0
  else t.activities.length - (if t.is_closed then 2 else 1)

/-- Translation of `Tour::total`: number of all activities. -/
def Tour.total (t : Tour) : Nat :=
  t.activities.length

/-- Translation of `Tour::insert_at`: asserts the activity has a job and the tour is
initialized, records the job and splices the activity in at `index`
(`Vec::insert` also aborts when `index > len`, hence the extra bound). -/
def Tour.insert_at (t : Tour) (a : Activity) (index : Nat) : Option Tour :=
  match a.retrieve_job with
  | none => none
  | some j =>
    if t.activities ≠ [] ∧ index ≤ t.activities.length then
      some { t with
              jobs := insert j t.jobs,
              activities := t.activities.take index ++ a :: t.activities.drop index }
    else none

/-- Translation of `Tour::insert_last`: inserts at index `activity_count() + 1`. -/
def Tour.insert_last (t : Tour) (a : Activity) : Option Tour :=
  t.insert_at a (t.activity_count + 1)

/-- Translation of `Tour::remove`: retains only activities of other jobs and removes the job
from the job set, reporting whether it was present. -/
def Tour.remove (t : Tour) (j : Job) : Tour × Bool :=
  ({ t with
      activities := t.activities.filter (fun a => !(a.has_same_job j)),
      jobs := t.jobs.erase j },
   decide (j ∈ t.jobs))

/-- Translation of `Tour::remove_activity_at`: looks up the activity at `idx`, retrieves its
job (`expect` aborts when the index is out of range or the activity is a
sentinel), removes the job and returns it. -/
def Tour.remove_activity_at (t : Tour) (idx : Nat) : Option (Tour × Job) :=
  match (t.activities[idx]?).bind Activity.retrieve_job with
  | none => none
  | some j => some ((t.remove j).1, j)

/-- Translation of `Tour::remove_activities_at`: drains the half-open index range `[s, e)`
(`Vec::drain` aborts on an invalid range), extracts each drained activity's
job (`expect` aborts on a sentinel), then removes every drained job. -/
def Tour.remove_activities_at (t : Tour) (s e : Nat) : Option (Tour × List Job) :=
  if s ≤ e ∧ e ≤ t.activities.length then
    let drained := (t.activities.drop s).take (e - s)
    if drained.all (fun a => a.retrieve_job.isSome) then
      let js := drained.filterMap Activity.retrieve_job
      let t1 : Tour := { t with activities := t.activities.take s ++ t.activities.drop e }
      some (js.foldl (fun tt j => (tt.remove j).1) t1, js)
    else none
  else none

/-- Translation of `slice::windows(n)`: all contiguous subslices of length `n`, in order. -/
def windows {α : Type} (n : Nat) : List α → List (List α)
  | [] => []
  | x :: xs => if n ≤ (x :: xs).length then (x :: xs).take n :: windows n xs else []

/-- Translation of `Iterator::zip(0_usize..)` starting the count at `k`. -/
def zipIdxFrom {α : Type} (k : Nat) : List α → List (α × Nat)
  | [] => []
  | x :: xs => (x, k) :: zipIdxFrom (k + 1) xs

/-- Translation of `Tour::legs`: counted tour legs. On an empty tour the source computes
`self.activities.len() - 1` on a `usize`, which underflows and aborts; that
branch is `none`. -/
def Tour.legs (t : Tour) : Option (List (List Activity × Nat)) :=
  match t.activities with
  | [] => none
  | _ :: _ =>
    let last_index := t.activities.length - 1
    let window_size := if last_index = 0 then 1 else 2
    let legs0 := zipIdxFrom 0 (windows window_size t.activities)
    let is_open_tour_with_jobs := t.is_closed = false ∧ 0 < last_index
    if is_open_tour_with_jobs then
      some (legs0 ++ [(t.activities.drop last_index, last_index)])
    else
      some legs0

/-- The `Tour` mutation operations named by the spec's invariants, as syntax. -/
inductive Op
  | set_start (a : Activity)
  | set_end (a : Activity)
  | insert_at (a : Activity) (index : Nat)
  | insert_last (a : Activity)
  | remove (j : Job)
  | remove_activity_at (idx : Nat)
  | remove_activities_at (s e : Nat)
deriving DecidableEq

/-- Applies one tour operation; `none` when the source aborts. -/
def applyOp (t : Tour) : Op → Option Tour
  | .set_start a => t.set_start a
  | .set_end a => t.set_end a
  | .insert_at a i => t.insert_at a i
  | .insert_last a => t.insert_last a
  | .remove j => some (t.remove j).1
  | .remove_activity_at i => (t.remove_activity_at i).map Prod.fst
  | .remove_activities_at s e => (t.remove_activities_at s e).map Prod.fst

/-- Applies a sequence of tour operations left to right. -/
def applyOps (t : Tour) : List Op → Option Tour
  | [] => some t
  | op :: ops =>
    match applyOp t op with
    | none => none
    | some t' => applyOps t' ops

/-- The spec's jobs invariant: `jobs` equals the set of jobs referenced by the
non-sentinel activities. -/
def Tour.wellJobs (t : Tour) : Prop :=
  t.jobs = (t.activities.filterMap Activity.retrieve_job).toFinset

instance (t : Tour) : Decidable t.wellJobs := by
  unfold Tour.wellJobs
  infer_instance

/-- A start sentinel is present: the activity at position 0 exists and has no
job. -/
def Tour.startSentinel (t : Tour) : Bool :=
  match t.activities.head? with
  | some a => a.job == none
  | none => false

/-- An end sentinel is present at the last position: the tour has at least two
activities and the last one has no job (with a single activity the job-less
head is the start sentinel, not an end sentinel). -/
def Tour.endSentinel (t : Tour) : Bool :=
  decide (2 ≤ t.activities.length) &&
    match t.activities.getLast? with
    | some a => a.job == none
    | none => false

/-- The tour has been initialized (`set_start` pushed the start sentinel). -/
def Tour.initialized (t : Tour) : Bool :=
  !t.activities.isEmpty

/-! ## Composite ruin (`src/src/refinement/ruin/mod.rs`) -/

/-- The pseudo-random source, abstracted as a predetermined stream of rational
draws together with the current position. -/
structure Rng where
  stream : Nat → ℚ
  pos : Nat

/-- Translation of `Random::uniform_real(0., 1.)`: takes the next draw from the stream. -/
def Rng.uniform_real (r : Rng) : ℚ × Rng :=
  (r.stream r.pos, { r with pos := r.pos + 1 })

/-- The next `n` draws the stream would deliver, in order. -/
def Rng.draws (r : Rng) (n : Nat) : List ℚ :=
  (List.range n).map (fun i => r.stream (r.pos + i))

/-- Translation of `CompositeRuin::run`: Rust's lazy `iter().filter(p).fold(ctx, f)` draws the
probability check for each registered ruin just before (possibly) applying it,
so it is a single left fold carrying the random source and the insertion
context. `C` is the insertion context, `R` a ruin strategy, `applyRuin` the
dispatch of `Ruin::run`. -/
def CompositeRuin.run {C R : Type} (applyRuin : R → C → C)
    (ruins : List (R × ℚ)) (rng : Rng) (ctx : C) : C :=
  (ruins.foldl
    (fun s rp =>
      let d := s.1.uniform_real
      if rp.2 > d.1 then (d.2, applyRuin rp.1 s.2) else (d.2, s.2))
    (rng, ctx)).2

/-- The composite ruin exactly as the spec words it: given one fresh draw per
registered strategy, process the strategies in registration order and apply
each one iff its draw is strictly below its probability, accumulating the
effects on the same context. -/
def CompositeRuin.runSpec {C R : Type} (applyRuin : R → C → C) :
    List (R × ℚ) → List ℚ → C → C
  | [], _, ctx => ctx
  | _ :: _, [], ctx => ctx
  | rp :: rs, d :: ds, ctx =>
    CompositeRuin.runSpec applyRuin rs ds (if d < rp.2 then applyRuin rp.1 ctx else ctx)

/-- The two ruin strategies registered by `CompositeRuin::default`; their
internals live outside the provided sources, so they stay abstract tags. -/
inductive RuinStrategy
  | adjustedStringRemoval
  | randomRouteRemoval
deriving DecidableEq

/-- Translation of `CompositeRuin::default`: the registered `(strategy, probability)` pairs,
in registration order. -/
def CompositeRuin.defaultRuins : List (RuinStrategy × ℚ) :=
  [(RuinStrategy.adjustedStringRemoval, 1), (RuinStrategy.randomRouteRemoval, 0.01)]

/-! ## CLI surface (`src/src/main.rs`) -/

/-- The format tags with a registered problem reader (`readers` in `main`). -/
def readerFormats : List String := ["solomon", "lilim"]

/-- The format tags with a registered solution writer (`writers` in `main`). -/
def writerFormats : List String := ["solomon"]

/-- Modelled from the spec: the Solomon and Li&Lim parsers are external
collaborators (`parse(path) -> Problem | error_message`); a parse outcome is
abstracted to whether it succeeded. Solving always succeeds and the solution
writer's IO never fails, as the spec assumes. -/
def parseOutcome : Type := Bool

/-- Exit code of `main` for a given format tag and parse outcome: `clap`
rejects a tag outside `readerFormats` with exit code 1 before anything runs; a
parse error prints a diagnostic and exits 1; a missing writer for the tag
prints a diagnostic and exits 1; otherwise the solution is written and the
process ends with exit code 0. -/
def cliExit (format : String) (parseOk : Bool) : Nat :=
  if format ∈ readerFormats then
    if parseOk then
      if format ∈ writerFormats then 0 else 1
    else 1
  else 1

/-- Whether the invocation is a success in the spec's sense: the problem was
parsed, solved, and the solution written. -/
def cliSuccess (format : String) (parseOk : Bool) : Bool :=
  decide (format ∈ readerFormats) && parseOk && decide (format ∈ writerFormats)

/-! ## Theorems -/

/-- Claim C2: for every `Tour`, `activity_count()` returns
`total() − 1 − (1 if closed else 0)` (with `usize`-style truncated
subtraction, under which the equation also covers the tour whose activity
list is empty: both sides are then `0`, which is why the source
special-cases emptiness instead of underflowing). -/
theorem activity_count_eq_total_sub (t : Tour) :
    t.activity_count = t.total - 1 - (if t.is_closed then 1 else 0) := by
  rcases t with ⟨acts, jobs, closed⟩
  unfold Tour.activity_count Tour.total
  cases acts <;> cases closed <;> simp

/-- One unfolding step of `CompositeRuin.run`: the draw for the head strategy
happens, then the fold continues on the advanced random source. -/
theorem composite_run_cons {C R : Type} (applyRuin : R → C → C)
    (rp : R × ℚ) (rs : List (R × ℚ)) (rng : Rng) (ctx : C) :
    CompositeRuin.run applyRuin (rp :: rs) rng ctx =
      CompositeRuin.run applyRuin rs { rng with pos := rng.pos + 1 }
        (if rp.2 > rng.stream rng.pos then applyRuin rp.1 ctx else ctx) := by
  unfold CompositeRuin.run
  simp only [List.foldl_cons, Rng.uniform_real]
  by_cases h : rp.2 > rng.stream rng.pos <;> simp [h]

/-- The upcoming draws of a stream, head and tail. -/
theorem draws_succ (r : Rng) (n : Nat) :
    r.draws (n + 1) = r.stream r.pos :: Rng.draws { r with pos := r.pos + 1 } n := by
  unfold Rng.draws
  rw [List.range_succ_eq_map, List.map_cons, List.map_map]
  simp only [Nat.add_zero]
  have hfun : ((fun i => r.stream (r.pos + i)) ∘ Nat.succ) =
      (fun i => r.stream (r.pos + 1 + i)) := by
    funext i
    simp only [Function.comp_apply, Nat.succ_eq_add_one]
    congr 1
    omega
  rw [hfun]

/-- Claim C3: `CompositeRuin::run` applies each registered ruin strategy iff a
fresh Uniform(0,1) draw taken for that strategy is strictly below its
probability, processing the strategies in registration order and accumulating
their effects on the same insertion context — i.e. the lazy filter-fold of the
source refines the per-strategy draw discipline the spec describes. -/
theorem composite_ruin_run_refines_spec {C R : Type} (applyRuin : R → C → C)
    (ruins : List (R × ℚ)) (rng : Rng) (ctx : C) :
    CompositeRuin.run applyRuin ruins rng ctx =
      CompositeRuin.runSpec applyRuin ruins (rng.draws ruins.length) ctx := by
  induction ruins generalizing rng ctx with
  | nil => rfl
  | cons rp rs ih =>
    rw [composite_run_cons, List.length_cons, draws_succ]
    unfold CompositeRuin.runSpec
    rw [ih]

/-- Claim C8: the default `CompositeRuin` registers exactly two strategies, in
this order: `AdjustedStringRemoval` with application probability 1, then
`RandomRouteRemoval` with application probability 0.01. -/
theorem default_composite_ruin_strategies :
    CompositeRuin.defaultRuins.length = 2 ∧
    CompositeRuin.defaultRuins.get? 0 =
      some (RuinStrategy.adjustedStringRemoval, 1) ∧
    CompositeRuin.defaultRuins.get? 1 =
      some (RuinStrategy.randomRouteRemoval, 1 / 100) := by
  refine ⟨rfl, rfl, ?_⟩
  unfold CompositeRuin.defaultRuins
  norm_num

/-- Claim C4: the CLI exits 0 exactly on success (accepted tag, problem
parsed, solved and written), exits 1 on a parse error, exits 1 on an unknown
format tag (rejected by the argument parser before anything runs), and the
accepted format tags are exactly `solomon` and `lilim`. -/
theorem cli_exit_codes (format : String) (parseOk : Bool) :
    (cliExit format parseOk = 0 ↔ cliSuccess format parseOk = true) ∧
    (format ∈ readerFormats → parseOk = false → cliExit format parseOk = 1) ∧
    (format ∉ readerFormats → cliExit format parseOk = 1) ∧
    readerFormats = ["solomon", "lilim"] := by
  unfold cliExit cliSuccess
  refine ⟨?_, ?_, ?_, rfl⟩
  · by_cases hr : format ∈ readerFormats <;>
      by_cases hw : format ∈ writerFormats <;>
      cases parseOk <;> simp [hr, hw]
  · intro hr hp
    subst hp
    simp [hr]
  · intro hr
    simp [hr]

/-- Witness for claim C4: the Solomon tag with a successful parse exits 0 and
is a success; the Li&Lim tag with a failing parse exits 1; an unknown tag
exits 1. -/
theorem cli_exit_codes_witness :
    (cliExit "solomon" true = 0 ↔ cliSuccess "solomon" true = true) ∧
    cliExit "lilim" false = 1 ∧
    cliExit "tsplib" false = 1 :=
  ⟨(cli_exit_codes "solomon" true).1,
   (cli_exit_codes "lilim" false).2.1 (by decide) rfl,
   (cli_exit_codes "tsplib" false).2.2.1 (by decide)⟩

/-- Claim C5: the assertion-backed abort paths of `insert_at` and
`remove_activity_at`: inserting into an uninitialized tour aborts; inserting
a job-less activity aborts; removing at an out-of-range index or at a
sentinel aborts; and these paths are unreachable once the tour is
initialized, the inserted activity has a job and its index is within the
vector bound, and the removal index names a job-bearing activity. -/
theorem assertion_abort_paths (t : Tour) (a b : Activity) (i : Nat) :
    (t.activities = [] → t.insert_at a i = none) ∧
    (a.job = none → t.insert_at a i = none) ∧
    (t.activities[i]? = none → t.remove_activity_at i = none) ∧
    (t.activities[i]? = some b → b.job = none → t.remove_activity_at i = none) ∧
    (t.activities ≠ [] → a.job.isSome → i ≤ t.activities.length →
      (t.insert_at a i).isSome) ∧
    (t.activities[i]? = some b → b.job.isSome → (t.remove_activity_at i).isSome) := by
  refine ⟨?_, ?_, ?_, ?_, ?_, ?_⟩
  · intro h
    unfold Tour.insert_at
    cases a.retrieve_job <;> simp [h]
  · intro h
    unfold Tour.insert_at Activity.retrieve_job
    rw [h]
  · intro h
    unfold Tour.remove_activity_at
    rw [h]
    rfl
  · intro hget hjob
    unfold Tour.remove_activity_at
    rw [hget]
    simp [Activity.retrieve_job, hjob]
  · intro hne hjob hle
    unfold Tour.insert_at Activity.retrieve_job
    obtain ⟨j, hj⟩ := Option.isSome_iff_exists.mp hjob
    rw [hj]
    simp [hne, hle]
  · intro hget hjob
    unfold Tour.remove_activity_at
    rw [hget]
    obtain ⟨j, hj⟩ := Option.isSome_iff_exists.mp hjob
    simp [Activity.retrieve_job, hj]

/-- Witness for claim C5: concrete aborts and concrete successes. -/
theorem assertion_abort_paths_witness :
    (Tour.mk [] ∅ false).insert_at ⟨some 3⟩ 1 = none ∧
    (Tour.mk [⟨none⟩] ∅ false).insert_at ⟨none⟩ 1 = none ∧
    ((Tour.mk [⟨none⟩] ∅ false).insert_at ⟨some 3⟩ 1).isSome ∧
    (Tour.mk [⟨none⟩] ∅ false).remove_activity_at 5 = none ∧
    (Tour.mk [⟨none⟩] ∅ false).remove_activity_at 0 = none ∧
    ((Tour.mk [⟨none⟩, ⟨some 4⟩] {4} false).remove_activity_at 1).isSome :=
  ⟨(assertion_abort_paths (Tour.mk [] ∅ false) ⟨some 3⟩ ⟨none⟩ 1).1 rfl,
   (assertion_abort_paths (Tour.mk [⟨none⟩] ∅ false) ⟨none⟩ ⟨none⟩ 1).2.1 rfl,
   (assertion_abort_paths (Tour.mk [⟨none⟩] ∅ false) ⟨some 3⟩ ⟨none⟩ 1).2.2.2.2.1
     (by decide) (by decide) (by decide),
   (assertion_abort_paths (Tour.mk [⟨none⟩] ∅ false) ⟨some 3⟩ ⟨none⟩ 5).2.2.1 (by decide),
   (assertion_abort_paths (Tour.mk [⟨none⟩] ∅ false) ⟨some 3⟩ ⟨none⟩ 0).2.2.2.1
     (by decide) rfl,
   (assertion_abort_paths (Tour.mk [⟨none⟩, ⟨some 4⟩] {4} false) ⟨some 4⟩ ⟨some 4⟩ 1).2.2.2.2.2
     (by decide) (by decide)⟩

/-- Claim C10: on an index naming a job-bearing activity,
`remove_activity_at` returns that activity's job, drops every activity of
that job from the activity list (keeping all other activities, sentinels
included, in order), and removes the job from the job set; the closed flag is
untouched. -/
theorem remove_activity_at_removes_whole_job (t : Tour) (idx : Nat)
    (b : Activity) (j : Job)
    (hget : t.activities[idx]? = some b) (hjob : b.retrieve_job = some j) :
    t.remove_activity_at idx =
      some (Tour.mk (t.activities.filter (fun a => decide (a.retrieve_job ≠ some j)))
              (t.jobs.erase j) t.is_closed, j) := by
  unfold Tour.remove_activity_at
  rw [hget]
  simp only [Option.some_bind, hjob]
  have hpred : (fun a : Activity => !(a.has_same_job j)) =
      (fun a : Activity => decide (a.retrieve_job ≠ some j)) := by
    funext a
    simp [Activity.has_same_job, Bool.beq_eq_decide_eq]
  simp [Tour.remove, hpred]

/-- Characterization of `slice::windows(n)` as an index map: window `i` is the `n`-slice starting
at index `i`, for `i` up to `len + 1 - n`. -/
theorem windows_eq_map_range {α : Type} (n : Nat) (hn : 0 < n) (l : List α) :
    windows n l = (List.range (l.length + 1 - n)).map (fun i => (l.drop i).take n) := by
  induction l with
  | nil =>
    have h0 : (0 : Nat) + 1 - n = 0 := by omega
    simp [windows, h0]
  | cons x xs ih =>
    by_cases h : n ≤ (x :: xs).length
    · rw [windows, if_pos h]
      have hlen : (x :: xs).length + 1 - n = (xs.length + 1 - n) + 1 := by
        simp only [List.length_cons] at h ⊢
        omega
      rw [hlen, List.range_succ_eq_map, List.map_cons, List.map_map, ih]
      simp only [List.drop_zero]
      have hfun : ((fun i => (List.drop i (x :: xs)).take n) ∘ Nat.succ) =
          (fun i => (List.drop i xs).take n) := by
        funext i
        simp [List.drop_succ_cons]
      rw [hfun]
    · rw [windows, if_neg h]
      have h0 : (x :: xs).length + 1 - n = 0 := by
        simp only [List.length_cons] at h ⊢
        omega
      rw [h0]
      rfl

/-- Zipping a counter starting at `k` onto values indexed by `range'` from
`k` pairs every value with its own index. -/
theorem zipIdxFrom_map_range' {α : Type} (f : Nat → α) :
    ∀ (n k : Nat), zipIdxFrom k ((List.range' k n).map f) =
      (List.range' k n).map (fun i => (f i, i))
  | 0, _ => rfl
  | n + 1, k => by
    rw [List.range'_succ, List.map_cons, List.map_cons, zipIdxFrom,
      zipIdxFrom_map_range' f n (k + 1)]

/-- Zipping a counter starting at 0 onto values indexed by `range` pairs
every value with its own index. -/
theorem zipIdxFrom_map_range {α : Type} (f : Nat → α) (n : Nat) :
    zipIdxFrom 0 ((List.range n).map f) = (List.range n).map (fun i => (f i, i)) := by
  rw [List.range_eq_range']
  exact zipIdxFrom_map_range' f n 0

/-- Dropping all but the last element leaves exactly the last element. -/
theorem drop_length_sub_one {α : Type} {l : List α} {b : α}
    (h : l.getLast? = some b) : l.drop (l.length - 1) = [b] := by
  obtain ⟨ys, rfl⟩ := List.getLast?_eq_some_iff.mp h
  have hlen : (ys ++ [b]).length - 1 = ys.length := by
    simp
  rw [hlen, List.drop_left]

/-- Claim C7: on a non-closed tour with a single activity (the start
sentinel), `legs` yields exactly the singleton start leg counted 0; on a
non-closed tour with at least two activities it yields every adjacent pair
(window `i` being the 2-slice at index `i`) followed by one extra singleton
leg holding the last activity, counted with the last index. -/
theorem legs_open_tour (t : Tour) (hopen : t.is_closed = false) :
    (∀ a, t.activities = [a] → t.legs = some [([a], 0)]) ∧
    (∀ b, 2 ≤ t.activities.length → t.activities.getLast? = some b →
      t.legs = some ((List.range (t.activities.length - 1)).map
          (fun i => ((t.activities.drop i).take 2, i)) ++
        [([b], t.activities.length - 1)])) := by
  rcases t with ⟨acts, jobs, closed⟩
  simp only at hopen
  subst hopen
  constructor
  · intro a ha
    simp only at ha
    subst ha
    rfl
  · intro b hlen hlast
    simp only at hlen hlast ⊢
    cases acts with
    | nil => simp at hlen
    | cons x xs =>
      have hpos : 0 < (x :: xs).length - 1 := by
        simp only [List.length_cons] at hlen ⊢
        omega
      simp only [Tour.legs, if_neg (Nat.pos_iff_ne_zero.mp hpos)]
      rw [drop_length_sub_one hlast]
      have h2 : (x :: xs).length + 1 - 2 = (x :: xs).length - 1 := by omega
      rw [windows_eq_map_range 2 (by omega) (x :: xs), h2, zipIdxFrom_map_range]
      simp [hpos]
      intro hxs
      subst hxs
      simp at hlen

/-- Witness for claim C7: the two shapes on concrete open tours. -/
theorem legs_open_tour_witness :
    (Tour.mk [⟨none⟩] ∅ false).legs = some [([⟨none⟩], 0)] ∧
    (Tour.mk [⟨none⟩, ⟨some 1⟩] {1} false).legs =
      some ((List.range 1).map
          (fun i => (((Tour.mk [⟨none⟩, ⟨some 1⟩] {1} false).activities.drop i).take 2, i)) ++
        [([⟨some 1⟩], 1)]) :=
  ⟨(legs_open_tour (Tour.mk [⟨none⟩] ∅ false) rfl).1 ⟨none⟩ rfl,
   (legs_open_tour (Tour.mk [⟨none⟩, ⟨some 1⟩] {1} false) rfl).2 ⟨some 1⟩
     (by decide) (by decide)⟩

/-- Witness for claim C10: removing at index 1 of a tour holding job 4 twice
removes both of job 4's activities, keeps the sentinel, and returns job 4. -/
theorem remove_activity_at_removes_whole_job_witness :
    (Tour.mk [⟨none⟩, ⟨some 4⟩, ⟨some 4⟩] {4} false).remove_activity_at 1 =
      some (Tour.mk
        ((Tour.mk [⟨none⟩, ⟨some 4⟩, ⟨some 4⟩] {4} false).activities.filter
          (fun a => decide (a.retrieve_job ≠ some 4)))
        ((Tour.mk [⟨none⟩, ⟨some 4⟩, ⟨some 4⟩] ({4} : Finset Job) false).jobs.erase 4)
        false, 4) :=
  remove_activity_at_removes_whole_job
    (Tour.mk [⟨none⟩, ⟨some 4⟩, ⟨some 4⟩] {4} false) 1 ⟨some 4⟩ 4 (by decide) rfl

/-! ### The jobs invariant (claim C1) -/

/-- Membership in a list splits at any take/drop boundary. -/
theorem mem_take_or_drop {α : Type} (i : Nat) (l : List α) (b : α) :
    b ∈ l ↔ b ∈ l.take i ∨ b ∈ l.drop i := by
  conv_lhs => rw [← List.take_append_drop i l]
  exact List.mem_append

/-- A list splits as prefix, drained middle segment, and suffix. -/
theorem take_drained_drop {α : Type} (l : List α) {s e : Nat}
    (hse : s ≤ e) :
    l = l.take s ++ ((l.drop s).take (e - s) ++ l.drop e) := by
  have h1 : l.drop e = (l.drop s).drop (e - s) := by
    rw [List.drop_drop]
    congr 1
    omega
  rw [h1, List.take_append_drop, List.take_append_drop]

/-- Activities after folding `Tour::remove` over a list of jobs: exactly the
activities of none of those jobs survive. -/
theorem foldl_remove_activities : ∀ (js : List Job) (tt : Tour),
    (js.foldl (fun tt j => (tt.remove j).1) tt).activities =
      tt.activities.filter (fun a => js.all (fun j => !(a.has_same_job j)))
  | [], tt => by simp
  | j :: js, tt => by
    rw [List.foldl_cons, foldl_remove_activities js ((tt.remove j).1)]
    show ((tt.activities.filter fun a => !(a.has_same_job j)).filter _) = _
    rw [List.filter_filter]
    congr 1
    funext a
    simp [List.all_cons, Bool.and_comm]

/-- Job set after folding `Tour::remove` over a list of jobs. -/
theorem foldl_remove_jobs : ∀ (js : List Job) (tt : Tour),
    (js.foldl (fun tt j => (tt.remove j).1) tt).jobs = tt.jobs \ js.toFinset
  | [], tt => by simp
  | j :: js, tt => by
    rw [List.foldl_cons, foldl_remove_jobs js ((tt.remove j).1)]
    show tt.jobs.erase j \ js.toFinset = _
    ext x
    simp only [Finset.mem_sdiff, Finset.mem_erase, List.toFinset_cons,
      Finset.mem_insert, List.mem_toFinset]
    tauto

/-- Operation `Tour::remove` preserves the jobs invariant. -/
theorem wellJobs_remove (t : Tour) (j : Job) (h : t.wellJobs) :
    ((t.remove j).1).wellJobs := by
  unfold Tour.wellJobs at h ⊢
  show t.jobs.erase j =
    ((t.activities.filter fun a => !(a.has_same_job j)).filterMap
      Activity.retrieve_job).toFinset
  rw [h]
  ext x
  simp only [Finset.mem_erase, List.mem_toFinset, List.mem_filterMap,
    List.mem_filter, Activity.has_same_job, Bool.not_eq_eq_eq_not,
    Bool.not_true, beq_eq_false_iff_ne, ne_eq]
  constructor
  · rintro ⟨hxj, a, hal, hax⟩
    refine ⟨a, ⟨hal, ?_⟩, hax⟩
    rw [hax]
    simp [hxj]
  · rintro ⟨a, ⟨hal, haj⟩, hax⟩
    refine ⟨?_, a, hal, hax⟩
    intro hxj
    rw [hxj] at hax
    exact haj hax

/-- Operation `Tour::insert_at` preserves the jobs invariant. -/
theorem wellJobs_insert_at (t t' : Tour) (a : Activity) (i : Nat)
    (h : t.wellJobs) (happ : t.insert_at a i = some t') : t'.wellJobs := by
  cases hra : a.retrieve_job with
  | none =>
    simp only [Tour.insert_at, hra] at happ
    cases happ
  | some j =>
    simp only [Tour.insert_at, hra] at happ
    split at happ
    · cases happ
      unfold Tour.wellJobs at h ⊢
      show insert j t.jobs =
        (((t.activities.take i ++ a :: t.activities.drop i)).filterMap
          Activity.retrieve_job).toFinset
      rw [h]
      ext x
      simp only [Finset.mem_insert, List.mem_toFinset, List.mem_filterMap,
        List.mem_append, List.mem_cons]
      constructor
      · rintro (rfl | ⟨b, hbl, hbx⟩)
        · exact ⟨a, Or.inr (Or.inl rfl), hra⟩
        · rcases (mem_take_or_drop i t.activities b).mp hbl with hb | hb
          · exact ⟨b, Or.inl hb, hbx⟩
          · exact ⟨b, Or.inr (Or.inr hb), hbx⟩
      · rintro ⟨b, hb | rfl | hb, hbx⟩
        · exact Or.inr ⟨b, (mem_take_or_drop i t.activities b).mpr (Or.inl hb), hbx⟩
        · rw [hra] at hbx
          cases hbx
          exact Or.inl rfl
        · exact Or.inr ⟨b, (mem_take_or_drop i t.activities b).mpr (Or.inr hb), hbx⟩
    · cases happ

/-- Operation `Tour::remove_activities_at` preserves the jobs invariant. -/
theorem wellJobs_remove_activities_at (t : Tour) (s e : Nat) (pr : Tour × List Job)
    (h : t.wellJobs) (happ : t.remove_activities_at s e = some pr) :
    pr.1.wellJobs := by
  simp only [Tour.remove_activities_at] at happ
  split at happ
  · rename_i hc
    split at happ
    · rename_i hall
      cases happ
      set drained := (t.activities.drop s).take (e - s) with hdr
      set js := drained.filterMap Activity.retrieve_job with hjs
      unfold Tour.wellJobs at h ⊢
      rw [foldl_remove_jobs, foldl_remove_activities, h]
      show (t.activities.filterMap Activity.retrieve_job).toFinset \ js.toFinset =
        (((t.activities.take s ++ t.activities.drop e).filter
          (fun a => js.all (fun j => !(a.has_same_job j)))).filterMap
            Activity.retrieve_job).toFinset
      ext x
      simp only [Finset.mem_sdiff, List.mem_toFinset, List.mem_filterMap,
        List.mem_filter, List.mem_append, List.all_eq_true,
        Activity.has_same_job, Bool.not_eq_eq_eq_not, Bool.not_true,
        beq_eq_false_iff_ne, ne_eq]
      constructor
      · rintro ⟨⟨b, hbl, hbx⟩, hxjs⟩
        have hbsplit : b ∈ t.activities.take s ∨ b ∈ drained ∨ b ∈ t.activities.drop e := by
          rw [take_drained_drop t.activities hc.1] at hbl
          rcases List.mem_append.mp hbl with hb | hb
          · exact Or.inl hb
          · rcases List.mem_append.mp hb with hb | hb
            · exact Or.inr (Or.inl hb)
            · exact Or.inr (Or.inr hb)
        have hbnot : b ∉ drained := by
          intro hbdr
          exact hxjs (List.mem_filterMap.mpr ⟨b, hbdr, hbx⟩)
        refine ⟨b, ⟨?_, ?_⟩, hbx⟩
        · rcases hbsplit with hb | hb | hb
          · exact Or.inl hb
          · exact absurd hb hbnot
          · exact Or.inr hb
        · intro j hj hbj
          rw [hbj] at hbx
          cases hbx
          exact hxjs hj
      · rintro ⟨b, ⟨hbl, hnj⟩, hbx⟩
        refine ⟨⟨b, ?_, hbx⟩, ?_⟩
        · rcases hbl with hb | hb
          · exact List.take_subset s t.activities hb
          · exact List.drop_subset e t.activities hb
        · intro hxjs
          exact hnj x hxjs hbx
    · cases happ
  · cases happ

/-- Every single tour operation preserves the jobs invariant. -/
theorem wellJobs_applyOp (t t' : Tour) (op : Op) (h : t.wellJobs)
    (happ : applyOp t op = some t') : t'.wellJobs := by
  cases op with
  | set_start a =>
    simp only [applyOp] at happ
    unfold Tour.set_start at happ
    split at happ
    · rename_i hc
      cases happ
      unfold Tour.wellJobs at h ⊢
      show t.jobs = ((t.activities ++ [a]).filterMap Activity.retrieve_job).toFinset
      rw [List.filterMap_append, h]
      simp [Activity.retrieve_job, hc.1]
    · cases happ
  | set_end a =>
    simp only [applyOp] at happ
    unfold Tour.set_end at happ
    split at happ
    · rename_i hc
      cases happ
      unfold Tour.wellJobs at h ⊢
      show t.jobs = ((t.activities ++ [a]).filterMap Activity.retrieve_job).toFinset
      rw [List.filterMap_append, h]
      simp [Activity.retrieve_job, hc.1]
    · cases happ
  | insert_at a i => exact wellJobs_insert_at t t' a i h happ
  | insert_last a => exact wellJobs_insert_at t t' a (t.activity_count + 1) h happ
  | remove j =>
    simp only [applyOp] at happ
    cases happ
    exact wellJobs_remove t j h
  | remove_activity_at i =>
    simp only [applyOp] at happ
    unfold Tour.remove_activity_at at happ
    split at happ
    · cases happ
    · cases happ
      exact wellJobs_remove t _ h
  | remove_activities_at s e =>
    simp only [applyOp] at happ
    cases hpr : t.remove_activities_at s e with
    | none => rw [hpr] at happ; cases happ
    | some pr =>
      rw [hpr] at happ
      cases happ
      exact wellJobs_remove_activities_at t s e pr h hpr

/-- Claim C1: after every sequence of tour operations (`set_start`,
`set_end`, `insert_at`, `insert_last`, `remove`, `remove_activity_at`,
`remove_activities_at`) that does not abort, a tour whose jobs set equals the
set of jobs of its non-sentinel activities still satisfies that equation:
`jobs = {a.job | a in activities, a not sentinel}` is an invariant of the
tour operations. -/
theorem jobs_invariant (t t' : Tour) (ops : List Op) (h : t.wellJobs)
    (happ : applyOps t ops = some t') : t'.wellJobs := by
  induction ops generalizing t with
  | nil =>
    unfold applyOps at happ
    cases happ
    exact h
  | cons op ops ih =>
    unfold applyOps at happ
    cases hop : applyOp t op with
    | none => rw [hop] at happ; cases happ
    | some t1 =>
      rw [hop] at happ
      exact ih t1 (wellJobs_applyOp t t1 op h hop) happ

/-- Witness for claim C1: a concrete operation sequence from the default tour
lands in a tour satisfying the jobs invariant. -/
theorem jobs_invariant_witness :
    Tour.wellJobs (Tour.mk [⟨none⟩, ⟨some 5⟩] {5} false) :=
  jobs_invariant Tour.default (Tour.mk [⟨none⟩, ⟨some 5⟩] {5} false)
    [.set_start ⟨none⟩, .insert_at ⟨some 5⟩ 1] (by decide) (by decide)

/-! ### Totality of `legs` (claim C9) -/

/-- A tour with at least one activity always has legs. -/
theorem legs_isSome_of_ne_nil (t : Tour) (h : t.activities ≠ []) :
    (t.legs).isSome := by
  rcases t with ⟨acts, jobs, closed⟩
  simp only at h
  cases acts with
  | nil => exact absurd rfl h
  | cons x xs =>
    simp only [Tour.legs]
    split <;> rfl

/-- A job-less activity survives `Tour::remove`. -/
theorem mem_remove_of_job_none (t : Tour) (j : Job) (b : Activity)
    (hb : b ∈ t.activities) (hn : b.job = none) :
    b ∈ ((t.remove j).1).activities := by
  show b ∈ t.activities.filter _
  rw [List.mem_filter]
  refine ⟨hb, ?_⟩
  simp [Activity.has_same_job, Activity.retrieve_job, hn]

/-- Every activity of the tour survives `Tour::insert_at`. -/
theorem mem_insert_at_of_mem (t t' : Tour) (a b : Activity) (i : Nat)
    (hb : b ∈ t.activities) (happ : t.insert_at a i = some t') :
    b ∈ t'.activities := by
  cases hra : a.retrieve_job with
  | none =>
    simp only [Tour.insert_at, hra] at happ
    cases happ
  | some j =>
    simp only [Tour.insert_at, hra] at happ
    split at happ
    · cases happ
      show b ∈ t.activities.take i ++ a :: t.activities.drop i
      rcases (mem_take_or_drop i t.activities b).mp hb with hbt | hbd
      · exact List.mem_append.mpr (Or.inl hbt)
      · exact List.mem_append.mpr (Or.inr (List.mem_cons.mpr (Or.inr hbd)))
    · cases happ

/-- A job-less activity survives `Tour::remove_activities_at`. -/
theorem mem_remove_activities_at_of_job_none (t : Tour) (s e : Nat)
    (pr : Tour × List Job) (b : Activity)
    (hb : b ∈ t.activities) (hn : b.job = none)
    (happ : t.remove_activities_at s e = some pr) : b ∈ pr.1.activities := by
  simp only [Tour.remove_activities_at] at happ
  split at happ
  · rename_i hc
    split at happ
    · rename_i hall
      cases happ
      rw [foldl_remove_activities, List.mem_filter]
      constructor
      · have hbd : b ∉ (t.activities.drop s).take (e - s) := by
          intro hmem
          rw [List.all_eq_true] at hall
          have hsome := hall b hmem
          rw [Activity.retrieve_job, hn] at hsome
          cases hsome
        rw [take_drained_drop t.activities hc.1] at hb
        rcases List.mem_append.mp hb with h1 | h2
        · exact List.mem_append.mpr (Or.inl h1)
        · rcases List.mem_append.mp h2 with h3 | h4
          · exact absurd h3 hbd
          · exact List.mem_append.mpr (Or.inr h4)
      · rw [List.all_eq_true]
        intro j hj
        simp [Activity.has_same_job, Activity.retrieve_job, hn]
    · cases happ
  · cases happ

/-- Every tour operation preserves the presence of a job-less (sentinel)
activity. -/
theorem sentinel_exists_applyOp (t t' : Tour) (op : Op)
    (h : ∃ a ∈ t.activities, a.job = none) (happ : applyOp t op = some t') :
    ∃ a ∈ t'.activities, a.job = none := by
  cases op with
  | set_start a =>
    simp only [applyOp] at happ
    unfold Tour.set_start at happ
    split at happ
    · rename_i hc
      cases happ
      exact ⟨a, by simp, hc.1⟩
    · cases happ
  | set_end a =>
    simp only [applyOp] at happ
    unfold Tour.set_end at happ
    split at happ
    · rename_i hc
      cases happ
      exact ⟨a, by simp, hc.1⟩
    · cases happ
  | insert_at a i =>
    simp only [applyOp] at happ
    obtain ⟨b, hb, hn⟩ := h
    exact ⟨b, mem_insert_at_of_mem t t' a b i hb happ, hn⟩
  | insert_last a =>
    simp only [applyOp] at happ
    obtain ⟨b, hb, hn⟩ := h
    exact ⟨b, mem_insert_at_of_mem t t' a b (t.activity_count + 1) hb happ, hn⟩
  | remove j =>
    simp only [applyOp] at happ
    cases happ
    obtain ⟨b, hb, hn⟩ := h
    exact ⟨b, mem_remove_of_job_none t j b hb hn, hn⟩
  | remove_activity_at i =>
    simp only [applyOp] at happ
    unfold Tour.remove_activity_at at happ
    split at happ
    · cases happ
    · cases happ
      obtain ⟨b, hb, hn⟩ := h
      exact ⟨b, mem_remove_of_job_none t _ b hb hn, hn⟩
  | remove_activities_at s e =>
    simp only [applyOp] at happ
    cases hpr : t.remove_activities_at s e with
    | none => rw [hpr] at happ; cases happ
    | some pr =>
      rw [hpr] at happ
      cases happ
      obtain ⟨b, hb, hn⟩ := h
      exact ⟨b, mem_remove_activities_at_of_job_none t s e pr b hb hn hpr, hn⟩

/-- Operation sequences preserve the presence of a job-less activity. -/
theorem sentinel_exists_applyOps (t t' : Tour) (ops : List Op)
    (h : ∃ a ∈ t.activities, a.job = none) (happ : applyOps t ops = some t') :
    ∃ a ∈ t'.activities, a.job = none := by
  induction ops generalizing t with
  | nil =>
    unfold applyOps at happ
    cases happ
    exact h
  | cons op ops ih =>
    unfold applyOps at happ
    cases hop : applyOp t op with
    | none => rw [hop] at happ; cases happ
    | some t1 =>
      rw [hop] at happ
      exact ih t1 (sentinel_exists_applyOp t t1 op h hop) happ

/-- Claim C9: `legs` computes `len() − 1` on a `usize`, which underflows on
an uninitialized (empty) tour, so the embedding guards that branch with
`none`; once `set_start` has run, every tour reachable by further operations
keeps at least one activity, so the underflow branch is unreachable and
`legs` is total. -/
theorem legs_underflow_guard :
    (∀ t : Tour, t.activities = [] → t.legs = none) ∧
    (∀ (t t₀ t' : Tour) (a : Activity) (ops : List Op),
      t.set_start a = some t₀ → applyOps t₀ ops = some t' →
      t'.activities ≠ [] ∧ (t'.legs).isSome) := by
  constructor
  · intro t h
    rcases t with ⟨acts, jobs, closed⟩
    simp only at h
    subst h
    rfl
  · intro t t₀ t' a ops hstart happ
    have hsent : ∃ b ∈ t₀.activities, b.job = none := by
      unfold Tour.set_start at hstart
      split at hstart
      · rename_i hc
        cases hstart
        exact ⟨a, by simp, hc.1⟩
      · cases hstart
    obtain ⟨b, hb, _⟩ := sentinel_exists_applyOps t₀ t' ops hsent happ
    have hne : t'.activities ≠ [] := List.ne_nil_of_mem hb
    exact ⟨hne, legs_isSome_of_ne_nil t' hne⟩

/-- Witness for claim C9: the empty tour's legs abort; a concrete initialized
tour stays nonempty with total legs after an operation. -/
theorem legs_underflow_guard_witness :
    (Tour.mk [] ∅ false).legs = none ∧
    ((Tour.mk [⟨none⟩, ⟨some 5⟩] {5} false).activities ≠ [] ∧
      ((Tour.mk [⟨none⟩, ⟨some 5⟩] {5} false).legs).isSome) :=
  ⟨legs_underflow_guard.1 (Tour.mk [] ∅ false) rfl,
   legs_underflow_guard.2 Tour.default (Tour.mk [⟨none⟩] ∅ false)
     (Tour.mk [⟨none⟩, ⟨some 5⟩] {5} false) ⟨none⟩ [.insert_at ⟨some 5⟩ 1]
     (by decide) (by decide)⟩

/-! ### The sentinel invariant (claim C6) -/

/-- Tour operations restricted to the insertion positions the insertion
engine uses (`p ∈ [1 .. activity_count + 1]`, spec §4.2): like `applyOp`,
but a raw `insert_at` outside that range is rejected. -/
def applyOpG (t : Tour) : Op → Option Tour
  | .insert_at a i =>
    if 1 ≤ i ∧ i ≤ t.activity_count + 1 then t.insert_at a i else none
  | op => applyOp t op

/-- Applies a sequence of guarded tour operations left to right. -/
def applyOpsG (t : Tour) : List Op → Option Tour
  | [] => some t
  | op :: ops =>
    match applyOpG t op with
    | none => none
    | some t' => applyOpsG t' ops

/-- The head of the activity list, if any, is a sentinel. -/
def headSentinel (l : List Activity) : Prop :=
  ∀ a ∈ l.head?, a.job = none

/-- Shape of a closed tour's activity list: at least two activities and a
job-less last activity. -/
def closedShape (l : List Activity) : Prop :=
  2 ≤ l.length ∧ ∀ a ∈ l.getLast?, a.job = none

/-- Shape of an open tour's activity list: every activity after the head has
a job. -/
def openTail (l : List Activity) : Prop :=
  ∀ a ∈ l.drop 1, a.job ≠ none

/-- The sentinel structure invariant preserved by the guarded operations. -/
def SentinelInv (t : Tour) : Prop :=
  headSentinel t.activities ∧
  (t.is_closed = true → closedShape t.activities) ∧
  (t.is_closed = false → openTail t.activities)

/-- The last entry of a suffix is the last entry of the whole list. -/
theorem getLast?_drop_of_lt {α : Type} (l : List α) (i : Nat) (h : i < l.length) :
    (l.drop i).getLast? = l.getLast? := by
  rw [List.getLast?_eq_getElem?, List.getLast?_eq_getElem?, List.length_drop,
    List.getElem?_drop]
  congr 1
  omega

/-- Dropping the head does not change the last entry of a two-element list. -/
theorem getLast?_cons_of_ne_nil {α : Type} (a : α) (m : List α) (h : m ≠ []) :
    (a :: m).getLast? = m.getLast? := by
  cases m with
  | nil => exact absurd rfl h
  | cons y ys => exact List.getLast?_cons_cons

/-- Filtering keeps the last entry when the last entry passes the filter. -/
theorem getLast?_filter {α : Type} (p : α → Bool) (l : List α) (b : α)
    (hlast : l.getLast? = some b) (hpb : p b = true) :
    (l.filter p).getLast? = some b := by
  rw [List.getLast?_eq_head?_reverse] at hlast ⊢
  rw [← List.filter_reverse]
  cases hrev : l.reverse with
  | nil =>
    rw [hrev] at hlast
    cases hlast
  | cons y ys =>
    rw [hrev] at hlast
    have hyb : y = b := by
      simpa using hlast
    subst hyb
    rw [List.filter_cons_of_pos hpb]
    rfl

/-- From the sentinel invariant, the spec's two presence-iff statements
follow: a start sentinel is present iff the tour is initialized, and an end
sentinel is present iff the tour is closed. -/
theorem sentinelInv_iff (t : Tour) (h : SentinelInv t) :
    t.startSentinel = t.initialized ∧ t.endSentinel = t.is_closed := by
  obtain ⟨hhead, hclosed, hopen⟩ := h
  constructor
  · cases hl : t.activities with
    | nil =>
      unfold Tour.startSentinel Tour.initialized
      rw [hl]
      rfl
    | cons x xs =>
      unfold Tour.startSentinel Tour.initialized
      rw [hl]
      have hx : x.job = none := by
        apply hhead
        rw [hl]
        rfl
      simp [hx]
  · cases hcl : t.is_closed with
    | true =>
      obtain ⟨hlen, hlast⟩ := hclosed hcl
      unfold Tour.endSentinel
      have hne : t.activities ≠ [] := by
        intro hnil
        rw [hnil] at hlen
        simp at hlen
      obtain ⟨b, hb⟩ := Option.ne_none_iff_exists'.mp
        (mt List.getLast?_eq_none_iff.mp hne)
      have hbj : b.job = none := hlast b hb
      rw [hb]
      simp [hlen, hbj]
    | false =>
      unfold Tour.endSentinel
      by_cases hlen : 2 ≤ t.activities.length
      · cases hl : t.activities with
        | nil =>
          rw [hl] at hlen
          simp at hlen
        | cons x xs =>
          have hxs : xs ≠ [] := by
            intro hnil
            rw [hl, hnil] at hlen
            simp at hlen
          obtain ⟨b, hb⟩ := Option.ne_none_iff_exists'.mp
            (mt List.getLast?_eq_none_iff.mp hxs)
          have hbmem : b ∈ xs := List.mem_of_getLast?_eq_some hb
          have hbj : b.job ≠ none := by
            apply hopen hcl
            rw [hl]
            simpa using hbmem
          rw [getLast?_cons_of_ne_nil x xs hxs, hb]
          simp [hbj]
      · simp [hlen]

/-- The default tour satisfies the sentinel invariant. -/
theorem sentinelInv_default : SentinelInv Tour.default := by
  refine ⟨?_, ?_, ?_⟩
  · intro a ha
    cases ha
  · intro hcl
    cases hcl
  · intro _ a ha
    cases ha

/-- Operation `set_start` establishes (and preserves) the sentinel invariant. -/
theorem sentinelInv_set_start (t t' : Tour) (a : Activity)
    (h : SentinelInv t) (happ : t.set_start a = some t') : SentinelInv t' := by
  unfold Tour.set_start at happ
  split at happ
  · rename_i hc
    cases happ
    obtain ⟨hhead, hclosed, hopen⟩ := h
    have hcl : t.is_closed = false := by
      cases hcl : t.is_closed
      · rfl
      · obtain ⟨hlen, _⟩ := hclosed hcl
        rw [hc.2] at hlen
        simp at hlen
    refine ⟨?_, ?_, ?_⟩
    · intro b hb
      rw [hc.2] at hb
      simp at hb
      rw [← hb]
      exact hc.1
    · intro hcl'
      rw [hcl] at hcl'
      cases hcl'
    · intro _ b hb
      rw [hc.2] at hb
      simp at hb
  · cases happ

/-- Operation `set_end` preserves the sentinel invariant and closes the tour. -/
theorem sentinelInv_set_end (t t' : Tour) (a : Activity)
    (h : SentinelInv t) (happ : t.set_end a = some t') : SentinelInv t' := by
  unfold Tour.set_end at happ
  split at happ
  · rename_i hc
    cases happ
    obtain ⟨hhead, hclosed, hopen⟩ := h
    refine ⟨?_, ?_, ?_⟩
    · intro b hb
      cases hl : t.activities with
      | nil => exact absurd hl hc.2
      | cons x xs =>
        rw [hl] at hb
        simp at hb
        rw [← hb]
        apply hhead
        rw [hl]
        rfl
    · intro _
      have hpos : 0 < t.activities.length := List.length_pos.mpr hc.2
      constructor
      · rw [List.length_append]
        simp
        omega
      · intro b hb
        rw [List.getLast?_concat] at hb
        simp at hb
        rw [← hb]
        exact hc.1
    · intro hcl'
      cases hcl'
  · cases happ

/-- Operation `Tour::remove` preserves the sentinel invariant. -/
theorem sentinelInv_remove (t : Tour) (j : Job) (h : SentinelInv t) :
    SentinelInv ((t.remove j).1) := by
  obtain ⟨hhead, hclosed, hopen⟩ := h
  have hp : ∀ b : Activity, b.job = none → (!(b.has_same_job j)) = true := by
    intro b hb
    simp [Activity.has_same_job, Activity.retrieve_job, hb]
  refine ⟨?_, ?_, ?_⟩
  · show headSentinel (t.activities.filter (fun b => !(b.has_same_job j)))
    cases hl : t.activities with
    | nil =>
      intro b hb
      rw [List.filter_nil] at hb
      cases hb
    | cons x xs =>
      have hx : x.job = none := by
        apply hhead
        rw [hl]
        rfl
      have hfc : (x :: xs).filter (fun b => !(b.has_same_job j)) =
          x :: xs.filter (fun b => !(b.has_same_job j)) :=
        List.filter_cons_of_pos (hp x hx)
      rw [hfc]
      intro b hb
      simp at hb
      rw [← hb]
      exact hx
  · intro hcl
    obtain ⟨hlen, hlast⟩ := hclosed hcl
    have hne : t.activities ≠ [] := by
      intro hnil
      rw [hnil] at hlen
      simp at hlen
    obtain ⟨b, hb⟩ := Option.ne_none_iff_exists'.mp
      (mt List.getLast?_eq_none_iff.mp hne)
    have hbj : b.job = none := hlast b hb
    constructor
    · show 2 ≤ (t.activities.filter (fun c => !(c.has_same_job j))).length
      cases hl : t.activities with
      | nil => exact absurd hl hne
      | cons x xs =>
        have hx : x.job = none := by
          apply hhead
          rw [hl]
          rfl
        have hxs : xs ≠ [] := by
          intro hnil
          rw [hl, hnil] at hlen
          simp at hlen
        have hfc : (x :: xs).filter (fun c => !(c.has_same_job j)) =
            x :: xs.filter (fun c => !(c.has_same_job j)) :=
          List.filter_cons_of_pos (hp x hx)
        rw [hfc]
        have hbxs : b ∈ xs := by
          rw [hl, getLast?_cons_of_ne_nil x xs hxs] at hb
          exact List.mem_of_getLast?_eq_some hb
        have hbf : b ∈ xs.filter (fun c => !(c.has_same_job j)) :=
          List.mem_filter.mpr ⟨hbxs, hp b hbj⟩
        have hpos := List.length_pos.mpr (List.ne_nil_of_mem hbf)
        simp only [List.length_cons]
        omega
    · intro c hc
      show c.job = none
      have hact : ((t.remove j).1).activities =
          t.activities.filter (fun b => !(b.has_same_job j)) := rfl
      rw [hact, getLast?_filter _ t.activities b hb (hp b hbj)] at hc
      simp at hc
      rw [← hc]
      exact hbj
  · intro hcl c hc
    show c.job ≠ none
    have hact : ((t.remove j).1).activities =
        t.activities.filter (fun b => !(b.has_same_job j)) := rfl
    rw [hact] at hc
    cases hl : t.activities with
    | nil =>
      rw [hl, List.filter_nil] at hc
      simp at hc
    | cons x xs =>
      have hx : x.job = none := by
        apply hhead
        rw [hl]
        rfl
      have hfc : (x :: xs).filter (fun b => !(b.has_same_job j)) =
          x :: xs.filter (fun b => !(b.has_same_job j)) :=
        List.filter_cons_of_pos (hp x hx)
      rw [hl, hfc] at hc
      simp only [List.drop_succ_cons, List.drop_zero] at hc
      have hcxs : c ∈ xs := List.mem_of_mem_filter hc
      apply hopen hcl
      rw [hl]
      simpa using hcxs

/-- Splicing an element into a list at a positive index keeps the head. -/
theorem insert_split {α : Type} (x : α) (xs : List α) (a : α) (i0 : Nat) :
    (x :: xs).take (i0 + 1) ++ a :: (x :: xs).drop (i0 + 1) =
      x :: (xs.take i0 ++ a :: xs.drop i0) := by
  rw [List.take_succ_cons, List.drop_succ_cons, List.cons_append]

/-- Draining an interior range keeps the head. -/
theorem head?_take_append_drop {α : Type} (l : List α) (s e : Nat)
    (hs : 1 ≤ s) (hl : l ≠ []) :
    (l.take s ++ l.drop e).head? = l.head? := by
  cases l with
  | nil => exact absurd rfl hl
  | cons x xs =>
    cases s with
    | zero => omega
    | succ s0 =>
      rw [List.take_succ_cons, List.cons_append]
      rfl

/-- Draining a range that stops before the end keeps the last element. -/
theorem getLast?_take_append_drop {α : Type} (l : List α) (s e : Nat)
    (he : e < l.length) :
    (l.take s ++ l.drop e).getLast? = l.getLast? := by
  have hdne : l.drop e ≠ [] := by
    intro hnil
    have hlen := congrArg List.length hnil
    rw [List.length_drop] at hlen
    simp at hlen
    omega
  rw [List.getLast?_append, getLast?_drop_of_lt l e he]
  have hlne : l ≠ [] := by
    intro hnil
    subst hnil
    simp at he
  obtain ⟨b, hb⟩ := Option.ne_none_iff_exists'.mp
    (mt List.getLast?_eq_none_iff.mp hlne)
  rw [hb]
  rfl

/-- Elements after the head of a drained list were after the head before. -/
theorem mem_drop_one_take_append_drop {α : Type} {l : List α} {s e : Nat}
    (hs : 1 ≤ s) (he : 1 ≤ e) {c : α}
    (hc : c ∈ (l.take s ++ l.drop e).drop 1) : c ∈ l.drop 1 := by
  cases l with
  | nil => simp at hc
  | cons x xs =>
    cases s with
    | zero => omega
    | succ s0 =>
      cases e with
      | zero => omega
      | succ e0 =>
        rw [List.take_succ_cons, List.drop_succ_cons, List.cons_append,
          List.drop_succ_cons, List.drop_zero] at hc
        show c ∈ xs
        rcases List.mem_append.mp hc with h1 | h2
        · exact List.take_subset s0 xs h1
        · exact List.drop_subset e0 xs h2

/-- Operation `insert_at` within the engine's position range preserves the sentinel
invariant. -/
theorem sentinelInv_insert_at (t t' : Tour) (a : Activity) (i : Nat)
    (h : SentinelInv t) (hg1 : 1 ≤ i) (hg2 : i ≤ t.activity_count + 1)
    (happ : t.insert_at a i = some t') : SentinelInv t' := by
  obtain ⟨hhead, hclosed, hopen⟩ := h
  cases hra : a.retrieve_job with
  | none =>
    simp only [Tour.insert_at, hra] at happ
    cases happ
  | some j =>
    have haj : a.job = some j := hra
    simp only [Tour.insert_at, hra] at happ
    split at happ
    · rename_i hc
      obtain ⟨hne, hilen⟩ := hc
      cases happ
      cases hl : t.activities with
      | nil => exact absurd hl hne
      | cons x xs =>
        cases i with
        | zero => omega
        | succ i0 =>
          have hx : x.job = none := by
            apply hhead
            rw [hl]
            rfl
          rw [insert_split]
          refine ⟨?_, ?_, ?_⟩
          · intro b hb
            simp at hb
            rw [← hb]
            exact hx
          · intro hcl
            have hcl' : t.is_closed = true := hcl
            obtain ⟨hlen2, hlast⟩ := hclosed hcl'
            have hcnt : t.activity_count = t.activities.length - 2 := by
              simp [Tour.activity_count, hne, hcl']
            have hilt : i0 + 1 < t.activities.length := by
              rw [hcnt] at hg2
              rw [hl] at hlen2 ⊢
              simp only [List.length_cons] at hg2 hlen2 ⊢
              rw [hl] at hg2
              simp only [List.length_cons] at hg2
              omega
            have hi0xs : i0 < xs.length := by
              rw [hl] at hilt
              simp only [List.length_cons] at hilt
              omega
            have hdne : xs.drop i0 ≠ [] := by
              intro hnil
              have hlen := congrArg List.length hnil
              rw [List.length_drop] at hlen
              simp at hlen
              omega
            have hxs : xs ≠ [] := by
              intro hnil
              subst hnil
              simp at hi0xs
            constructor
            · simp only [List.length_cons, List.length_append, List.length_take,
                List.length_drop]
              omega
            · intro c hc'
              rw [getLast?_cons_of_ne_nil x _ (by simp),
                List.getLast?_append,
                getLast?_cons_of_ne_nil a _ hdne,
                getLast?_drop_of_lt xs i0 hi0xs] at hc'
              rw [hl, getLast?_cons_of_ne_nil x xs hxs] at hlast
              obtain ⟨b, hb⟩ := Option.ne_none_iff_exists'.mp
                (mt List.getLast?_eq_none_iff.mp hxs)
              rw [hb] at hc'
              simp at hc'
              rw [← hc']
              exact hlast b hb
          · intro hcl c hc'
            simp only [List.drop_succ_cons, List.drop_zero] at hc'
            have hxj : ∀ b ∈ xs, b.job ≠ none := by
              intro b hb
              apply hopen hcl
              rw [hl]
              simpa using hb
            rcases List.mem_append.mp hc' with h1 | h2
            · exact hxj c (List.take_subset i0 xs h1)
            · rcases List.mem_cons.mp h2 with rfl | h3
              · rw [haj]
                simp
              · exact hxj c (List.drop_subset i0 xs h3)
    · cases happ

/-- Folding `Tour::remove` preserves the sentinel invariant. -/
theorem sentinelInv_foldl_remove : ∀ (js : List Job) (tt : Tour),
    SentinelInv tt → SentinelInv (js.foldl (fun tt j => (tt.remove j).1) tt)
  | [], _, h => h
  | j :: js, tt, h => by
    rw [List.foldl_cons]
    exact sentinelInv_foldl_remove js _ (sentinelInv_remove tt j h)

/-- Operation `remove_activities_at` preserves the sentinel invariant. -/
theorem sentinelInv_remove_activities_at (t : Tour) (s e : Nat)
    (pr : Tour × List Job) (h : SentinelInv t)
    (happ : t.remove_activities_at s e = some pr) : SentinelInv pr.1 := by
  have hinv := h
  obtain ⟨hhead, hclosed, hopen⟩ := h
  simp only [Tour.remove_activities_at] at happ
  split at happ
  · rename_i hc
    split at happ
    · rename_i hall
      cases happ
      apply sentinelInv_foldl_remove
      show SentinelInv
        (Tour.mk (t.activities.take s ++ t.activities.drop e) t.jobs t.is_closed)
      by_cases hse : s = e
      · subst hse
        rw [List.take_append_drop]
        exact hinv
      · have hslt : s < e := lt_of_le_of_ne hc.1 hse
        have hne : t.activities ≠ [] := by
          intro hnil
          rw [hnil] at hc
          simp at hc
          omega
        rw [List.all_eq_true] at hall
        have hs1 : 1 ≤ s := by
          by_contra hs0
          have hs0' : s = 0 := by omega
          subst hs0'
          cases hxl : t.activities with
          | nil => exact hne hxl
          | cons x xs =>
            have hxj : x.job = none := by
              apply hhead
              rw [hxl]
              rfl
            have hxmem : x ∈ (t.activities.drop 0).take (e - 0) := by
              rw [List.drop_zero, Nat.sub_zero, hxl]
              cases e with
              | zero => omega
              | succ e0 =>
                rw [List.take_succ_cons]
                exact List.mem_cons_self x _
            have hsome := hall x hxmem
            rw [Activity.retrieve_job, hxj] at hsome
            cases hsome
        refine ⟨?_, ?_, ?_⟩
        · intro b hb
          rw [head?_take_append_drop t.activities s e hs1 hne] at hb
          exact hhead b hb
        · intro hcl
          obtain ⟨hlen2, hlast⟩ := hclosed hcl
          have hee : e < t.activities.length := by
            rcases lt_or_eq_of_le hc.2 with hlt | heq
            · exact hlt
            · exfalso
              obtain ⟨b, hb⟩ := Option.ne_none_iff_exists'.mp
                (mt List.getLast?_eq_none_iff.mp hne)
              have hbj : b.job = none := hlast b hb
              have hslen : s < t.activities.length := by omega
              have hbd : b ∈ (t.activities.drop s).take (e - s) := by
                have hlen_drop : (t.activities.drop s).length = e - s := by
                  rw [List.length_drop]
                  omega
                rw [← hlen_drop, List.take_length]
                have hgl : (t.activities.drop s).getLast? = some b := by
                  rw [getLast?_drop_of_lt t.activities s hslen]
                  exact hb
                exact List.mem_of_getLast?_eq_some hgl
              have hsome := hall b hbd
              rw [Activity.retrieve_job, hbj] at hsome
              cases hsome
          constructor
          · have hpos : 0 < t.activities.length := List.length_pos.mpr hne
            simp only [List.length_append, List.length_take, List.length_drop]
            omega
          · intro c hc'
            rw [getLast?_take_append_drop t.activities s e hee] at hc'
            exact hlast c hc'
        · intro hcl c hc'
          have he1 : 1 ≤ e := by omega
          exact hopen hcl c (mem_drop_one_take_append_drop hs1 he1 hc')
    · cases happ
  · cases happ

/-- Every guarded tour operation preserves the sentinel invariant. -/
theorem sentinelInv_applyOpG (t t' : Tour) (op : Op) (h : SentinelInv t)
    (happ : applyOpG t op = some t') : SentinelInv t' := by
  cases op with
  | set_start a => exact sentinelInv_set_start t t' a h happ
  | set_end a => exact sentinelInv_set_end t t' a h happ
  | insert_at a i =>
    simp only [applyOpG] at happ
    split at happ
    · rename_i hg
      exact sentinelInv_insert_at t t' a i h hg.1 hg.2 happ
    · cases happ
  | insert_last a =>
    exact sentinelInv_insert_at t t' a (t.activity_count + 1) h
      (by omega) (le_refl _) happ
  | remove j =>
    have happ' : some ((t.remove j).1) = some t' := happ
    cases happ'
    exact sentinelInv_remove t j h
  | remove_activity_at i =>
    have happ' : (t.remove_activity_at i).map Prod.fst = some t' := happ
    unfold Tour.remove_activity_at at happ'
    split at happ'
    · cases happ'
    · cases happ'
      exact sentinelInv_remove t _ h
  | remove_activities_at s e =>
    have happ' : (t.remove_activities_at s e).map Prod.fst = some t' := happ
    cases hpr : t.remove_activities_at s e with
    | none => rw [hpr] at happ'; cases happ'
    | some pr =>
      rw [hpr] at happ'
      cases happ'
      exact sentinelInv_remove_activities_at t s e pr h hpr

/-- Guarded operation sequences preserve the sentinel invariant. -/
theorem sentinelInv_applyOpsG (t t' : Tour) (ops : List Op) (h : SentinelInv t)
    (happ : applyOpsG t ops = some t') : SentinelInv t' := by
  induction ops generalizing t with
  | nil =>
    unfold applyOpsG at happ
    cases happ
    exact h
  | cons op ops ih =>
    unfold applyOpsG at happ
    cases hop : applyOpG t op with
    | none => rw [hop] at happ; cases happ
    | some t1 =>
      rw [hop] at happ
      exact ih t1 (sentinelInv_applyOpG t t1 op h hop) happ

/-- Counterexample to claim C6 as stated: raw `insert_at` at index 0 passes
both of the source's assertions on an initialized tour, yet puts a
job-bearing activity at position 0, so the tour is initialized but has no
start sentinel. -/
theorem sentinel_iff_counterexample :
    applyOps Tour.default [.set_start ⟨none⟩, .insert_at ⟨some 7⟩ 0] =
      some (Tour.mk [⟨some 7⟩, ⟨none⟩] {7} false) ∧
    (Tour.mk [⟨some 7⟩, ⟨none⟩] {7} false).initialized = true ∧
    (Tour.mk [⟨some 7⟩, ⟨none⟩] {7} false).startSentinel = false := by
  decide

/-- Claim C6, amended: restrict `insert_at` to the insertion positions the
engine uses (`1 ≤ index ≤ activity_count + 1`, spec §4.2). Then on every tour
reachable from the default tour: a start sentinel (job-less activity at
position 0) is present iff the tour is initialized, and an end sentinel (at
least two activities, job-less activity at the last position) is present iff
`is_closed`; moreover `remove` (hence `remove_activity_at`) never deletes a
sentinel: the job-less activities are untouched. -/
theorem sentinel_invariant_guarded :
    (∀ (ops : List Op) (t : Tour), applyOpsG Tour.default ops = some t →
      t.startSentinel = t.initialized ∧ t.endSentinel = t.is_closed) ∧
    (∀ (t : Tour) (j : Job),
      ((t.remove j).1).activities.filter (fun a => a.job.isNone) =
        t.activities.filter (fun a => a.job.isNone)) := by
  constructor
  · intro ops t happ
    exact sentinelInv_iff t
      (sentinelInv_applyOpsG Tour.default t ops sentinelInv_default happ)
  · intro t j
    show (t.activities.filter (fun a => !(a.has_same_job j))).filter
        (fun a => a.job.isNone) = _
    rw [List.filter_filter]
    apply List.filter_congr
    intro a _
    cases ha : a.job <;>
      simp [Activity.has_same_job, Activity.retrieve_job, ha]

/-- Witness for the amended claim C6: a concrete guarded sequence ends in a
tour where both presence-iff equalities hold. -/
theorem sentinel_invariant_guarded_witness :
    (Tour.mk [⟨none⟩, ⟨some 5⟩] {5} false).startSentinel =
      (Tour.mk [⟨none⟩, ⟨some 5⟩] {5} false).initialized ∧
    (Tour.mk [⟨none⟩, ⟨some 5⟩] {5} false).endSentinel =
      (Tour.mk [⟨none⟩, ⟨some 5⟩] {5} false).is_closed :=
  sentinel_invariant_guarded.1 [.set_start ⟨none⟩, .insert_at ⟨some 5⟩ 1]
    (Tour.mk [⟨none⟩, ⟨some 5⟩] {5} false) (by decide)

end VRP
